import Mathlib

/-!
# Price-Compare-Pro — deal-scoring verification

A shallow embedding of the deal-scoring / best-deal-selection logic of the
Price-Compare-Pro repository.

Two layers are embedded:

* The backend Deal Scorer (`scoreAndRank`, `selectBestDeal`).  The Python
  backend source is not part of the source tree here; only its documentation
  (README, "Best Deal Scoring Formula" and "Best Deal Selection") and its
  frontend callers are.  These definitions are therefore modelled from the
  spec, as marked on each one.  Prices, ratings and scores are embedded as
  rationals (`ℚ`): the arithmetic of the scoring formula is exact decimal
  arithmetic at this granularity.

* The frontend best-deal computation, embedded directly from the source:
  `AIRecommendation` (the `reduce` picking the highest `final_score`) and
  `ResultsDisplay` (the scan with the `?? 0` default and the
  `final_score === maxScore` highlight).
-/

set_option autoImplicit false

namespace PriceCompare

/-- A normalized product record as produced by the upstream search
(spec §3 `ProductRecord`). -/
structure ProductRecord where
  name : String
  price : ℚ
  rating : ℚ
  retailer : String
  url : String
  deriving Repr, DecidableEq

/-- A scored product: `ProductRecord` plus `final_score` and a
human-readable `recommendation` label (spec §3 `ScoredProduct`). -/
structure ScoredProduct where
  name : String
  price : ℚ
  rating : ℚ
  retailer : String
  url : String
  final_score : ℚ
  recommendation : String
  deriving Repr, DecidableEq

/-- Modelled from the spec: the backend's price normalization
`price_score = maxPrice == minPrice ? 1.0 : 1 - (price - minPrice) / (maxPrice - minPrice)`
(spec §4.1 step 2; README "Best Deal Scoring Formula").  The backend Python
source is absent from the tree, so the guard for all-equal prices is taken
from the spec's words. -/
def priceScore (minP maxP price : ℚ) : ℚ :=
  if maxP = minP then 1 else 1 - (price - minP) / (maxP - minP)

/-- Modelled from the spec: `ratingScore = rating / 5.0` (spec §4.1 step 3). -/
def ratingScore (rating : ℚ) : ℚ := rating / 5

/-- Modelled from the spec:
`final_score = 0.7 * priceScore + 0.3 * ratingScore` (spec §4.1 step 4). -/
def finalScore (minP maxP price rating : ℚ) : ℚ :=
  0.7 * priceScore minP maxP price + 0.3 * ratingScore rating

/-- Modelled from the spec: the fixed-threshold recommendation label
(spec §4.1 step 5). -/
def recLabel (fs : ℚ) : String :=
  if 0.8 ≤ fs then "Excellent Deal" else if 0.6 ≤ fs then "Good Value" else "Fair"

/-- Modelled from the spec: records with `price <= 0` are excluded before
scoring (spec §4.1 input constraint, §7). -/
def validRecords (products : List ProductRecord) : List ProductRecord :=
  products.filter (fun p => decide (0 < p.price))

/-- Minimum price across a record set (0 on the empty set, which scoring
never consults). -/
def minPrice : List ProductRecord → ℚ
  | [] => 0
  | p :: ps => ps.foldl (fun m q => min m q.price) p.price

/-- Maximum price across a record set (0 on the empty set, which scoring
never consults). -/
def maxPrice : List ProductRecord → ℚ
  | [] => 0
  | p :: ps => ps.foldl (fun m q => max m q.price) p.price

/-- Score one record against the set-wide minimum and maximum price. -/
def scoreRecord (minP maxP : ℚ) (p : ProductRecord) : ScoredProduct :=
  { name := p.name
    price := p.price
    rating := p.rating
    retailer := p.retailer
    url := p.url
    final_score := finalScore minP maxP p.price p.rating
    recommendation := recLabel (finalScore minP maxP p.price p.rating) }

/-- Modelled from the spec: `scoreAndRank(products)` — drop records with
non-positive price, compute `minPrice`/`maxPrice` across the surviving set,
and score every survivor (spec §4.1). -/
def scoreAndRank (products : List ProductRecord) : List ScoredProduct :=
  let valid := validRecords products
  valid.map (scoreRecord (minPrice valid) (maxPrice valid))

/-- One step of the best-deal fold: a challenger replaces the current best
when it scores strictly higher, or scores equally and is strictly cheaper
(the spec's tie-break by lowest price). -/
def betterDeal (best cur : ScoredProduct) : ScoredProduct :=
  if best.final_score < cur.final_score ∨
      (cur.final_score = best.final_score ∧ cur.price < best.price) then cur else best

/-- Fold `betterDeal` over a candidate list starting from a first candidate. -/
def pickBest (a : ScoredProduct) (l : List ScoredProduct) : ScoredProduct :=
  l.foldl betterDeal a

/-- Modelled from the spec: the candidate set of `selectBestDeal` — the
records with `rating > 3.5`, or the whole set when none survives the filter
(spec §4.1 `selectBestDeal` policy; README "Best Deal Selection"). -/
def bestDealCandidates (scored : List ScoredProduct) : List ScoredProduct :=
  let survivors := scored.filter (fun p => decide ((3.5 : ℚ) < p.rating))
  if survivors.isEmpty then scored else survivors

/-- Modelled from the spec: `selectBestDeal(scored)` — `null` on the empty
list, otherwise the maximum `final_score` over the candidate set with ties
broken by lowest price (spec §4.1). -/
def selectBestDeal (scored : List ScoredProduct) : Option ScoredProduct :=
  match bestDealCandidates scored with
  | [] => none
  | c :: cs => some (pickBest c cs)

/-! ## Frontend embedding

The frontend `Product` shape (`src/unnamed/part_010`).  The displayed
records reach the frontend as JSON, and `ResultsDisplay` defends against a
missing `final_score` with `?? 0`, so `final_score` is embedded as an
`Option ℚ`; every other field keeps its declared shape. -/

/-- The frontend product record (`src/unnamed/part_010`, `Product`). -/
structure Product where
  product_name : String
  price : ℚ
  rating : ℚ
  product_url : String
  image_url : String
  retailer : String
  final_score : Option ℚ
  recommendation : String
  discount : Option String
  deriving Repr, DecidableEq

/-- The `p.final_score ?? 0` default of `ResultsDisplay`
(`src/frontend/src/components/ResultsDisplay.tsx:71,74`). -/
def scoreD (p : Product) : ℚ := p.final_score.getD 0

/-- JavaScript `>` on possibly-undefined scores: any comparison with
`undefined` is false (`AIRecommendation` compares `final_score` without a
default, `src/unnamed/part_012:158`). -/
def jsGT : Option ℚ → Option ℚ → Bool
  | some x, some y => decide (y < x)
  | _, _ => false

/-- The `AIRecommendation` best-deal reduce
(`src/unnamed/part_012:154-160`): `null` for an empty list, otherwise
`products.reduce((best, current) => current.final_score > best.final_score ? current : best, products[0])`. -/
def aiBestDeal (products : List Product) : Option Product :=
  match products with
  | [] => none
  | p :: _ =>
    some (products.foldl
      (fun best cur => if jsGT cur.final_score best.final_score then cur else best) p)

/-- One step of the `ResultsDisplay` best-deal scan
(`ResultsDisplay.tsx:73-79`): the accumulator is the `(bestDeal, maxScore)`
pair, updated exactly when `currentScore > maxScore`. -/
def resultsStep (acc : Product × ℚ) (p : Product) : Product × ℚ :=
  if acc.2 < scoreD p then (p, scoreD p) else acc

/-- The `ResultsDisplay` scan over all products
(`ResultsDisplay.tsx:70-79`), started from `allProducts[0]` and
`allProducts[0]?.final_score ?? 0`. -/
def resultsScan (l : List Product) (acc : Product × ℚ) : Product × ℚ :=
  l.foldl resultsStep acc

/-- The `bestDeal` variable after the scan (`ResultsDisplay.tsx:70-79`). -/
def resultsBestDeal (l : List Product) (h : l ≠ []) : Product :=
  (resultsScan l (l.head h, scoreD (l.head h))).1

/-- The `maxScore` variable after the scan (`ResultsDisplay.tsx:71-79`). -/
def resultsMaxScore (l : List Product) (h : l ≠ []) : ℚ :=
  (resultsScan l (l.head h, scoreD (l.head h))).2

/-- The grid highlight `product.final_score === maxScore`
(`ResultsDisplay.tsx:130-133`): strict equality, false on a missing score. -/
def highlighted (maxScore : ℚ) (p : Product) : Bool :=
  decide (p.final_score = some maxScore)

/-! ## Helper lemmas: the best-deal fold -/

/-- One `betterDeal` step keeps an element that scores at least as high as
both arguments, and at ties keeps the cheaper one. -/
theorem betterDeal_cases (a x : ScoredProduct) :
    (betterDeal a x = x ∧ a.final_score ≤ x.final_score ∧
      (x.final_score = a.final_score → x.price ≤ a.price)) ∨
    (betterDeal a x = a ∧ x.final_score ≤ a.final_score ∧
      (x.final_score = a.final_score → a.price ≤ x.price)) := by
  by_cases hC : a.final_score < x.final_score ∨
      (x.final_score = a.final_score ∧ x.price < a.price)
  · refine Or.inl ⟨by simp only [betterDeal, if_pos hC], ?_, ?_⟩
    · rcases hC with h | ⟨h, _⟩
      · exact le_of_lt h
      · exact le_of_eq h.symm
    · intro he
      rcases hC with h | ⟨_, h⟩
      · exact absurd he (ne_of_gt h)
      · exact le_of_lt h
  · have h1 : ¬ a.final_score < x.final_score := fun h => hC (Or.inl h)
    have h2 : x.final_score = a.final_score → a.price ≤ x.price := by
      intro he
      by_contra hp
      exact hC (Or.inr ⟨he, not_le.mp hp⟩)
    exact Or.inr ⟨by simp only [betterDeal, if_neg hC], not_lt.mp h1, h2⟩

/-- The best-deal fold returns a member of `a :: l` that attains the
maximum `final_score` over `a :: l` and, among the members tied at that
maximum, has the lowest price. -/
theorem pickBest_spec (l : List ScoredProduct) : ∀ a : ScoredProduct,
    pickBest a l ∈ a :: l ∧
    (∀ y ∈ a :: l, y.final_score ≤ (pickBest a l).final_score) ∧
    (∀ y ∈ a :: l, y.final_score = (pickBest a l).final_score →
      (pickBest a l).price ≤ y.price) := by
  induction l with
  | nil =>
    intro a
    refine ⟨List.mem_singleton.mpr rfl, ?_, ?_⟩
    · intro y hy
      rw [List.mem_singleton.mp hy]
      exact le_of_eq rfl
    · intro y hy _
      rw [List.mem_singleton.mp hy]
      exact le_of_eq rfl
  | cons x xs ih =>
    intro a
    have hstep : pickBest a (x :: xs) = pickBest (betterDeal a x) xs := rfl
    obtain ⟨hmem, hmax, htie⟩ := ih (betterDeal a x)
    have hb := betterDeal_cases a x
    have hbmem : betterDeal a x = a ∨ betterDeal a x = x := by
      rcases hb with ⟨h, _, _⟩ | ⟨h, _, _⟩
      · exact Or.inr h
      · exact Or.inl h
    have hble : a.final_score ≤ (betterDeal a x).final_score ∧
        x.final_score ≤ (betterDeal a x).final_score := by
      rcases hb with ⟨h, h1, _⟩ | ⟨h, h1, _⟩
      · rw [h]; exact ⟨h1, le_refl _⟩
      · rw [h]; exact ⟨le_refl _, h1⟩
    have hbtie : ∀ y, (y = a ∨ y = x) →
        y.final_score = (betterDeal a x).final_score →
        (betterDeal a x).price ≤ y.price := by
      intro y hy he
      rcases hb with ⟨h, _, h2⟩ | ⟨h, _, h2⟩ <;> rw [h] at he ⊢ <;>
        rcases hy with rfl | rfl
      · exact h2 he.symm
      · exact le_of_eq rfl
      · exact le_of_eq rfl
      · exact h2 he
    have hbmax : (betterDeal a x).final_score ≤ (pickBest a (x :: xs)).final_score := by
      rw [hstep]
      exact hmax _ (List.mem_cons_self _ _)
    refine ⟨?_, ?_, ?_⟩
    · rw [hstep]
      rcases List.mem_cons.mp hmem with h | h
      · rw [h]
        rcases hbmem with h' | h'
        · rw [h']; exact List.mem_cons_self _ _
        · rw [h']; exact List.mem_cons_of_mem _ (List.mem_cons_self _ _)
      · exact List.mem_cons_of_mem _ (List.mem_cons_of_mem _ h)
    · intro y hy
      rw [hstep]
      rcases List.mem_cons.mp hy with rfl | hy'
      · exact le_trans hble.1 hbmax
      · rcases List.mem_cons.mp hy' with rfl | hy''
        · exact le_trans hble.2 hbmax
        · exact hmax _ (List.mem_cons_of_mem _ hy'')
    · intro y hy he
      rw [hstep] at he ⊢
      have hcase : (y = a ∨ y = x) ∨ y ∈ xs := by
        rcases List.mem_cons.mp hy with rfl | hy'
        · exact Or.inl (Or.inl rfl)
        · rcases List.mem_cons.mp hy' with rfl | hy''
          · exact Or.inl (Or.inr rfl)
          · exact Or.inr hy''
      rcases hcase with hax | hxs
      · have hyb : y.final_score ≤ (betterDeal a x).final_score := by
          rcases hax with rfl | rfl
          · exact hble.1
          · exact hble.2
        have hbe : (betterDeal a x).final_score = (pickBest (betterDeal a x) xs).final_score :=
          le_antisymm (hmax _ (List.mem_cons_self _ _)) (by rw [← he]; exact hyb)
        have h1 : (pickBest (betterDeal a x) xs).price ≤ (betterDeal a x).price :=
          htie _ (List.mem_cons_self _ _) hbe
        have h2 : (betterDeal a x).price ≤ y.price :=
          hbtie y hax (by rw [he, ← hbe])
        exact le_trans h1 h2
      · exact htie _ (List.mem_cons_of_mem _ hxs) he

/-! ## Helper lemmas: candidate sets -/

/-- When some record has `rating > 3.5`, the candidate set is exactly the
rating filter's output. -/
theorem bestDealCandidates_of_high {l : List ScoredProduct}
    (h : ∃ p ∈ l, (3.5 : ℚ) < p.rating) :
    bestDealCandidates l = l.filter (fun p => decide ((3.5 : ℚ) < p.rating)) := by
  obtain ⟨p, hp, hr⟩ := h
  have hpf : p ∈ l.filter (fun p => decide ((3.5 : ℚ) < p.rating)) :=
    List.mem_filter.mpr ⟨hp, decide_eq_true hr⟩
  have hne : l.filter (fun p => decide ((3.5 : ℚ) < p.rating)) ≠ [] :=
    List.ne_nil_of_mem hpf
  simp only [bestDealCandidates, List.isEmpty_iff, if_neg hne]

/-- The candidate set of a non-empty list is non-empty. -/
theorem bestDealCandidates_ne_nil {l : List ScoredProduct} (h : l ≠ []) :
    bestDealCandidates l ≠ [] := by
  by_cases he : l.filter (fun p => decide ((3.5 : ℚ) < p.rating)) = []
  · simpa only [bestDealCandidates, List.isEmpty_iff, if_pos he] using h
  · simpa only [bestDealCandidates, List.isEmpty_iff, if_neg he] using he

/-- Unfolding `selectBestDeal` on a non-empty candidate set. -/
theorem selectBestDeal_eq_pick {l : List ScoredProduct} {c : ScoredProduct}
    {cs : List ScoredProduct} (h : bestDealCandidates l = c :: cs) :
    selectBestDeal l = some (pickBest c cs) := by
  simp only [selectBestDeal, h]

/-! ## Claims about `selectBestDeal` -/

/-- C1: for every product list containing at least one record with
`rating > 3.5`, `selectBestDeal` returns a record, that record has
`rating > 3.5` (never `rating ≤ 3.5`), it is drawn from the input, and it
attains the maximum `final_score` among the records that survive the
rating filter. -/
theorem selectBestDeal_rating_filter (l : List ScoredProduct)
    (h : ∃ p ∈ l, (3.5 : ℚ) < p.rating) :
    ∃ q, selectBestDeal l = some q ∧ (3.5 : ℚ) < q.rating ∧ q ∈ l ∧
      ∀ r ∈ l, (3.5 : ℚ) < r.rating → r.final_score ≤ q.final_score := by
  have hcand := bestDealCandidates_of_high h
  obtain ⟨p, hp, hr⟩ := h
  have hpf : p ∈ l.filter (fun p => decide ((3.5 : ℚ) < p.rating)) :=
    List.mem_filter.mpr ⟨hp, decide_eq_true hr⟩
  cases hfil : l.filter (fun p => decide ((3.5 : ℚ) < p.rating)) with
  | nil => rw [hfil] at hpf; cases hpf
  | cons c cs =>
    rw [hfil] at hcand
    have hsel := selectBestDeal_eq_pick hcand
    obtain ⟨hmem, hmax, _⟩ := pickBest_spec cs c
    have hqf : pickBest c cs ∈ l.filter (fun p => decide ((3.5 : ℚ) < p.rating)) := by
      rw [hfil]; exact hmem
    refine ⟨pickBest c cs, hsel, ?_, ?_, ?_⟩
    · exact of_decide_eq_true (List.mem_filter.mp hqf).2
    · exact (List.mem_filter.mp hqf).1
    · intro r hrl hrrat
      have hrf : r ∈ c :: cs := by
        rw [← hfil]
        exact List.mem_filter.mpr ⟨hrl, decide_eq_true hrrat⟩
      exact hmax r hrf

/-- Witness for C1 on a concrete two-record list: the low-rated record has
the higher score, yet the high-rated record is selected. -/
theorem selectBestDeal_rating_filter_witness :
    ∃ q, selectBestDeal
        [⟨"a", 100, 2, "shop", "u", 0.9, "Fair"⟩,
         ⟨"b", 50, 4, "shop", "u", 0.5, "Fair"⟩] = some q ∧
      (3.5 : ℚ) < q.rating ∧
      q ∈ [(⟨"a", 100, 2, "shop", "u", 0.9, "Fair"⟩ : ScoredProduct),
           ⟨"b", 50, 4, "shop", "u", 0.5, "Fair"⟩] ∧
      ∀ r ∈ [(⟨"a", 100, 2, "shop", "u", 0.9, "Fair"⟩ : ScoredProduct),
             ⟨"b", 50, 4, "shop", "u", 0.5, "Fair"⟩],
        (3.5 : ℚ) < r.rating → r.final_score ≤ q.final_score :=
  selectBestDeal_rating_filter _
    ⟨⟨"b", 50, 4, "shop", "u", 0.5, "Fair"⟩, by simp, by norm_num⟩

/-- C2: whenever `selectBestDeal` returns a record and two distinct
candidates are tied at the maximum `final_score`, the returned record is a
candidate attaining that maximum whose price is lowest among the tied
candidates. -/
theorem selectBestDeal_tie_lowest_price (l : List ScoredProduct)
    (q : ScoredProduct) (hq : selectBestDeal l = some q)
    (_htie : ∃ r1 ∈ bestDealCandidates l, ∃ r2 ∈ bestDealCandidates l,
      r1 ≠ r2 ∧ (∀ s ∈ bestDealCandidates l, s.final_score ≤ r1.final_score) ∧
      r2.final_score = r1.final_score) :
    q ∈ bestDealCandidates l ∧
    (∀ s ∈ bestDealCandidates l, s.final_score ≤ q.final_score) ∧
    (∀ s ∈ bestDealCandidates l, s.final_score = q.final_score → q.price ≤ s.price) := by
  cases hc : bestDealCandidates l with
  | nil => rw [selectBestDeal, hc] at hq; cases hq
  | cons c cs =>
    have : selectBestDeal l = some (pickBest c cs) := selectBestDeal_eq_pick hc
    rw [this] at hq
    obtain rfl : pickBest c cs = q := Option.some.inj hq
    obtain ⟨hmem, hmax, htieq⟩ := pickBest_spec cs c
    exact ⟨hmem, hmax, htieq⟩

/-- Witness for C2 on a concrete list tied at the maximum score: the
cheaper of the two tied records is selected. -/
theorem selectBestDeal_tie_lowest_price_witness :
    (⟨"b", 60, 4, "shop", "u", 0.6, "Fair"⟩ : ScoredProduct) ∈
      bestDealCandidates
        [⟨"a", 80, 4, "shop", "u", 0.6, "Fair"⟩,
         ⟨"b", 60, 4, "shop", "u", 0.6, "Fair"⟩] ∧
    (∀ s ∈ bestDealCandidates
        [(⟨"a", 80, 4, "shop", "u", 0.6, "Fair"⟩ : ScoredProduct),
         ⟨"b", 60, 4, "shop", "u", 0.6, "Fair"⟩],
      s.final_score ≤ (⟨"b", 60, 4, "shop", "u", 0.6, "Fair"⟩ : ScoredProduct).final_score) ∧
    (∀ s ∈ bestDealCandidates
        [(⟨"a", 80, 4, "shop", "u", 0.6, "Fair"⟩ : ScoredProduct),
         ⟨"b", 60, 4, "shop", "u", 0.6, "Fair"⟩],
      s.final_score = (⟨"b", 60, 4, "shop", "u", 0.6, "Fair"⟩ : ScoredProduct).final_score →
        (⟨"b", 60, 4, "shop", "u", 0.6, "Fair"⟩ : ScoredProduct).price ≤ s.price) :=
  selectBestDeal_tie_lowest_price _ _
    (by norm_num [selectBestDeal, bestDealCandidates, pickBest, betterDeal,
      List.filter_cons, decide_eq_true_eq])
    ⟨⟨"a", 80, 4, "shop", "u", 0.6, "Fair"⟩,
      by norm_num [bestDealCandidates, List.filter_cons, decide_eq_true_eq],
      ⟨"b", 60, 4, "shop", "u", 0.6, "Fair"⟩,
      by norm_num [bestDealCandidates, List.filter_cons, decide_eq_true_eq],
      by norm_num [ScoredProduct.mk.injEq],
      by
        intro s hs
        rw [bestDealCandidates_of_high
          ⟨⟨"a", 80, 4, "shop", "u", 0.6, "Fair"⟩, by simp, by norm_num⟩] at hs
        simp only [List.filter_cons, List.filter_nil, decide_eq_true_eq] at hs
        norm_num at hs
        rcases hs with rfl | rfl <;> norm_num,
      rfl⟩

/-- C3: `selectBestDeal` returns `none` on the empty list, and returns a
record on every non-empty list. -/
theorem selectBestDeal_none_iff_empty :
    selectBestDeal ([] : List ScoredProduct) = none ∧
    ∀ l : List ScoredProduct, l ≠ [] → ∃ q, selectBestDeal l = some q := by
  constructor
  · rfl
  · intro l hl
    cases hc : bestDealCandidates l with
    | nil => exact absurd hc (bestDealCandidates_ne_nil hl)
    | cons c cs => exact ⟨pickBest c cs, selectBestDeal_eq_pick hc⟩

/-- Witness for C3: a singleton list yields a recommendation. -/
theorem selectBestDeal_none_iff_empty_witness :
    ∃ q, selectBestDeal [(⟨"a", 10, 4, "shop", "u", 0.5, "Fair"⟩ : ScoredProduct)] = some q :=
  selectBestDeal_none_iff_empty.2 _ (by simp)

/-! ## Helper lemmas: scoring -/

/-- Membership in the valid-record filter. -/
theorem mem_validRecords {l : List ProductRecord} {p : ProductRecord} :
    p ∈ validRecords l ↔ p ∈ l ∧ 0 < p.price := by
  simp [validRecords]

/-- The running minimum of the price fold bounds its seed and every
element folded over. -/
theorem foldl_min_price_le (l : List ProductRecord) : ∀ m : ℚ,
    l.foldl (fun m q => min m q.price) m ≤ m ∧
    ∀ p ∈ l, l.foldl (fun m q => min m q.price) m ≤ p.price := by
  induction l with
  | nil =>
    intro m
    exact ⟨le_refl m, fun p hp => absurd hp (List.not_mem_nil p)⟩
  | cons a as ih =>
    intro m
    have h := ih (min m a.price)
    refine ⟨le_trans h.1 (min_le_left _ _), ?_⟩
    intro p hp
    rcases List.mem_cons.mp hp with rfl | hp'
    · exact le_trans h.1 (min_le_right _ _)
    · exact h.2 p hp'

/-- The running maximum of the price fold dominates its seed and every
element folded over. -/
theorem le_foldl_max_price (l : List ProductRecord) : ∀ m : ℚ,
    m ≤ l.foldl (fun m q => max m q.price) m ∧
    ∀ p ∈ l, p.price ≤ l.foldl (fun m q => max m q.price) m := by
  induction l with
  | nil =>
    intro m
    exact ⟨le_refl m, fun p hp => absurd hp (List.not_mem_nil p)⟩
  | cons a as ih =>
    intro m
    have h := ih (max m a.price)
    refine ⟨le_trans (le_max_left _ _) h.1, ?_⟩
    intro p hp
    rcases List.mem_cons.mp hp with rfl | hp'
    · exact le_trans (le_max_right _ _) h.1
    · exact h.2 p hp'

/-- `minPrice` bounds every member's price from below. -/
theorem minPrice_le {l : List ProductRecord} {p : ProductRecord} (hp : p ∈ l) :
    minPrice l ≤ p.price := by
  cases l with
  | nil => cases hp
  | cons a as =>
    rcases List.mem_cons.mp hp with rfl | hp'
    · exact (foldl_min_price_le as _).1
    · exact (foldl_min_price_le as _).2 p hp'

/-- `maxPrice` bounds every member's price from above. -/
theorem le_maxPrice {l : List ProductRecord} {p : ProductRecord} (hp : p ∈ l) :
    p.price ≤ maxPrice l := by
  cases l with
  | nil => cases hp
  | cons a as =>
    rcases List.mem_cons.mp hp with rfl | hp'
    · exact (le_foldl_max_price as _).1
    · exact (le_foldl_max_price as _).2 p hp'

/-- On a non-empty set the minimum price is at most the maximum price. -/
theorem minPrice_le_maxPrice {l : List ProductRecord} (h : l ≠ []) :
    minPrice l ≤ maxPrice l := by
  cases l with
  | nil => exact absurd rfl h
  | cons a as =>
    exact le_trans (minPrice_le (List.mem_cons_self a as))
      (le_maxPrice (List.mem_cons_self a as))

/-- The price fold with a constant seed over constant prices is constant. -/
theorem foldl_price_const (c : ℚ) (f : ℚ → ℚ → ℚ) (hf : f c c = c) :
    ∀ l : List ProductRecord, (∀ p ∈ l, p.price = c) →
      l.foldl (fun m q => f m q.price) c = c := by
  intro l
  induction l with
  | nil => intro _; rfl
  | cons a as ih =>
    intro hall
    have ha : a.price = c := hall a (List.mem_cons_self a as)
    have : (a :: as).foldl (fun m q => f m q.price) c =
        as.foldl (fun m q => f m q.price) (f c a.price) := rfl
    rw [this, ha, hf]
    exact ih fun p hp => hall p (List.mem_cons_of_mem a hp)

/-- On a non-empty all-equal-price set, the minimum and maximum prices
coincide with the common price. -/
theorem minPrice_maxPrice_const {l : List ProductRecord} {c : ℚ} (h : l ≠ [])
    (hall : ∀ p ∈ l, p.price = c) : minPrice l = c ∧ maxPrice l = c := by
  cases l with
  | nil => exact absurd rfl h
  | cons a as =>
    have ha : a.price = c := hall a (List.mem_cons_self a as)
    have has : ∀ p ∈ as, p.price = c := fun p hp => hall p (List.mem_cons_of_mem a hp)
    constructor
    · show as.foldl (fun m q => min m q.price) a.price = c
      rw [ha]
      exact foldl_price_const c min (min_self c) as has
    · show as.foldl (fun m q => max m q.price) a.price = c
      rw [ha]
      exact foldl_price_const c max (max_self c) as has

/-- The normalized price score stays in `[0, 1]` for any price between the
set minimum and maximum. -/
theorem priceScore_bounds {minP maxP price : ℚ} (h1 : minP ≤ price)
    (h2 : price ≤ maxP) :
    0 ≤ priceScore minP maxP price ∧ priceScore minP maxP price ≤ 1 := by
  unfold priceScore
  by_cases he : maxP = minP
  · rw [if_pos he]; norm_num
  · rw [if_neg he]
    have hlt : minP < maxP := lt_of_le_of_ne (le_trans h1 h2) (Ne.symm he)
    have hd : 0 < maxP - minP := sub_pos.mpr hlt
    have hq0 : 0 ≤ (price - minP) / (maxP - minP) := div_nonneg (by linarith) (le_of_lt hd)
    have hq1 : (price - minP) / (maxP - minP) ≤ 1 := (div_le_one hd).mpr (by linarith)
    constructor <;> linarith

/-- The normalized price score is antitone in the price. -/
theorem priceScore_anti {minP maxP p1 p2 : ℚ} (hle : minP ≤ maxP) (h : p1 ≤ p2) :
    priceScore minP maxP p2 ≤ priceScore minP maxP p1 := by
  unfold priceScore
  by_cases he : maxP = minP
  · simp only [if_pos he]; exact le_refl 1
  · have hlt : minP < maxP := lt_of_le_of_ne hle (Ne.symm he)
    have hd : 0 < maxP - minP := sub_pos.mpr hlt
    simp only [if_neg he]
    have hdiv : (p1 - minP) / (maxP - minP) ≤ (p2 - minP) / (maxP - minP) :=
      (div_le_div_iff_of_pos_right hd).mpr (by linarith)
    linarith

/-- A record is in the scored output exactly when it is the scoring of a
valid input record, against the valid set's price extremes. -/
theorem mem_scoreAndRank {l : List ProductRecord} {s : ScoredProduct} :
    s ∈ scoreAndRank l ↔ ∃ p ∈ validRecords l,
      scoreRecord (minPrice (validRecords l)) (maxPrice (validRecords l)) p = s := by
  simp [scoreAndRank]

/-! ## Claims about `scoreAndRank`

The worked example of spec §8: prices 100/50/75, ratings 4.0/3.0/4.5. -/

/-- First record of the spec §8 worked example. -/
def rec1 : ProductRecord := ⟨"p1", 100, 4, "amazon", "u1"⟩

/-- Second record of the spec §8 worked example. -/
def rec2 : ProductRecord := ⟨"p2", 50, 3, "flipkart", "u2"⟩

/-- Third record of the spec §8 worked example. -/
def rec3 : ProductRecord := ⟨"p3", 75, 4.5, "croma", "u3"⟩

/-- The spec §8 worked example list. -/
def exampleRecords : List ProductRecord := [rec1, rec2, rec3]

/-- C4: every record in the scored output carries
`final_score = 0.7 * priceScore + 0.3 * (rating / 5)`, where the price
score is `1 - (price - minPrice) / (maxPrice - minPrice)` over the scored
set, and `1` when the set's extremes coincide. -/
theorem scoreAndRank_final_score_formula (l : List ProductRecord)
    (s : ScoredProduct) (hs : s ∈ scoreAndRank l) :
    s.final_score =
      0.7 * (if maxPrice (validRecords l) = minPrice (validRecords l) then 1
        else 1 - (s.price - minPrice (validRecords l)) /
          (maxPrice (validRecords l) - minPrice (validRecords l))) +
      0.3 * (s.rating / 5) := by
  obtain ⟨p, _, rfl⟩ := mem_scoreAndRank.mp hs
  simp [scoreRecord, finalScore, priceScore, ratingScore]

/-- Witness for C4 at the spec §8 example's third record. -/
theorem scoreAndRank_final_score_formula_witness :
    (scoreRecord (minPrice (validRecords exampleRecords))
        (maxPrice (validRecords exampleRecords)) rec3).final_score =
      0.7 * (if maxPrice (validRecords exampleRecords) = minPrice (validRecords exampleRecords) then 1
        else 1 - ((scoreRecord (minPrice (validRecords exampleRecords))
            (maxPrice (validRecords exampleRecords)) rec3).price -
            minPrice (validRecords exampleRecords)) /
          (maxPrice (validRecords exampleRecords) - minPrice (validRecords exampleRecords))) +
      0.3 * ((scoreRecord (minPrice (validRecords exampleRecords))
        (maxPrice (validRecords exampleRecords)) rec3).rating / 5) :=
  scoreAndRank_final_score_formula exampleRecords _
    (mem_scoreAndRank.mpr ⟨rec3,
      mem_validRecords.mpr ⟨by simp [exampleRecords], by norm_num [rec3]⟩, rfl⟩)

/-- C5: when every input record has the same price, the division guard
fires (`priceScore` on coinciding extremes is `1` without dividing), and
every scored record's `final_score` is `0.7 * 1 + 0.3 * (rating / 5)`. -/
theorem scoreAndRank_equal_prices (l : List ProductRecord) (c : ℚ)
    (hall : ∀ p ∈ l, p.price = c) :
    (∀ m p : ℚ, priceScore m m p = 1) ∧
    ∀ s ∈ scoreAndRank l, s.final_score = 0.7 * 1 + 0.3 * (s.rating / 5) := by
  refine ⟨fun m p => by simp [priceScore], ?_⟩
  intro s hs
  obtain ⟨p, hp, rfl⟩ := mem_scoreAndRank.mp hs
  have hvne : validRecords l ≠ [] := List.ne_nil_of_mem hp
  have hvall : ∀ q ∈ validRecords l, q.price = c :=
    fun q hq => hall q (mem_validRecords.mp hq).1
  obtain ⟨hmin, hmax⟩ := minPrice_maxPrice_const hvne hvall
  simp [scoreRecord, finalScore, ratingScore, priceScore, hmin, hmax]

/-- Witness for C5 on a concrete all-equal-price list. -/
theorem scoreAndRank_equal_prices_witness :
    (∀ m p : ℚ, priceScore m m p = 1) ∧
    ∀ s ∈ scoreAndRank [(⟨"e1", 40, 2, "amazon", "u"⟩ : ProductRecord),
        ⟨"e2", 40, 5, "flipkart", "u"⟩],
      s.final_score = 0.7 * 1 + 0.3 * (s.rating / 5) :=
  scoreAndRank_equal_prices _ 40 (by
    intro p hp
    rcases List.mem_cons.mp hp with rfl | hp'
    · rfl
    · rcases List.mem_cons.mp hp' with rfl | hp''
      · rfl
      · cases hp'')

/-- C6: for a non-empty list of valid records (positive price, rating in
`[0, 5]`), every `final_score` produced by `scoreAndRank` lies in `[0, 1]`. -/
theorem scoreAndRank_score_bounds (l : List ProductRecord) (_hne : l ≠ [])
    (hvalid : ∀ p ∈ l, 0 < p.price ∧ 0 ≤ p.rating ∧ p.rating ≤ 5) :
    ∀ s ∈ scoreAndRank l, 0 ≤ s.final_score ∧ s.final_score ≤ 1 := by
  intro s hs
  obtain ⟨p, hp, rfl⟩ := mem_scoreAndRank.mp hs
  have hpl : p ∈ l := (mem_validRecords.mp hp).1
  have hmin : minPrice (validRecords l) ≤ p.price := minPrice_le hp
  have hmax : p.price ≤ maxPrice (validRecords l) := le_maxPrice hp
  have hps := priceScore_bounds hmin hmax
  obtain ⟨-, hr0, hr5⟩ := hvalid p hpl
  have hrs0 : 0 ≤ p.rating / 5 := div_nonneg hr0 (by norm_num)
  have hrs1 : p.rating / 5 ≤ 1 := (div_le_one (by norm_num : (0:ℚ) < 5)).mpr hr5
  simp only [scoreRecord, finalScore, ratingScore]
  constructor <;> linarith [hps.1, hps.2]

/-- Witness for C6 at the spec §8 example's third record. -/
theorem scoreAndRank_score_bounds_witness :
    0 ≤ (scoreRecord (minPrice (validRecords exampleRecords))
      (maxPrice (validRecords exampleRecords)) rec3).final_score ∧
    (scoreRecord (minPrice (validRecords exampleRecords))
      (maxPrice (validRecords exampleRecords)) rec3).final_score ≤ 1 :=
  scoreAndRank_score_bounds exampleRecords (by simp [exampleRecords])
    (by
      intro p hp
      simp only [exampleRecords, List.mem_cons, List.not_mem_nil, or_false] at hp
      rcases hp with rfl | rfl | rfl <;> norm_num [rec1, rec2, rec3])
    _
    (mem_scoreAndRank.mpr ⟨rec3,
      mem_validRecords.mpr ⟨by simp [exampleRecords], by norm_num [rec3]⟩, rfl⟩)

/-- C7: scoring is monotone within one scored set — a record that is at
most as expensive and at least as highly rated as another never receives a
lower `final_score`. -/
theorem scoreAndRank_monotone (l : List ProductRecord) (s1 s2 : ScoredProduct)
    (h1 : s1 ∈ scoreAndRank l) (h2 : s2 ∈ scoreAndRank l)
    (hp : s1.price ≤ s2.price) (hr : s2.rating ≤ s1.rating) :
    s2.final_score ≤ s1.final_score := by
  obtain ⟨p1, hp1, rfl⟩ := mem_scoreAndRank.mp h1
  obtain ⟨p2, _, rfl⟩ := mem_scoreAndRank.mp h2
  have hvne : validRecords l ≠ [] := List.ne_nil_of_mem hp1
  have hle : minPrice (validRecords l) ≤ maxPrice (validRecords l) :=
    minPrice_le_maxPrice hvne
  simp only [scoreRecord] at hp hr ⊢
  simp only [finalScore, ratingScore]
  have hmono := priceScore_anti hle hp
  have hrs : p2.rating / 5 ≤ p1.rating / 5 :=
    (div_le_div_iff_of_pos_right (by norm_num : (0:ℚ) < 5)).mpr hr
  linarith

/-- Witness for C7 on the spec §8 example: the 75-rupee 4.5-star record
scores at least the 100-rupee 4.0-star record. -/
theorem scoreAndRank_monotone_witness :
    (scoreRecord (minPrice (validRecords exampleRecords))
      (maxPrice (validRecords exampleRecords)) rec1).final_score ≤
    (scoreRecord (minPrice (validRecords exampleRecords))
      (maxPrice (validRecords exampleRecords)) rec3).final_score :=
  scoreAndRank_monotone exampleRecords _ _
    (mem_scoreAndRank.mpr ⟨rec3,
      mem_validRecords.mpr ⟨by simp [exampleRecords], by norm_num [rec3]⟩, rfl⟩)
    (mem_scoreAndRank.mpr ⟨rec1,
      mem_validRecords.mpr ⟨by simp [exampleRecords], by norm_num [rec1]⟩, rfl⟩)
    (by norm_num [scoreRecord, rec1, rec3])
    (by norm_num [scoreRecord, rec1, rec3])

/-- C8: records with non-positive price never reach the scored output,
while every positive-price input record is scored (with all its identifying
fields preserved); the computation is total, so nothing is raised or
propagated for the dropped records. -/
theorem scoreAndRank_drops_nonpositive (l : List ProductRecord)
    (p : ProductRecord) (hp : p ∈ l) (hpos : 0 < p.price) :
    (∀ s ∈ scoreAndRank l, 0 < s.price) ∧
    ∃ s ∈ scoreAndRank l, s.name = p.name ∧ s.price = p.price ∧
      s.rating = p.rating ∧ s.retailer = p.retailer := by
  constructor
  · intro s hs
    obtain ⟨q, hq, rfl⟩ := mem_scoreAndRank.mp hs
    simpa [scoreRecord] using (mem_validRecords.mp hq).2
  · exact ⟨scoreRecord (minPrice (validRecords l)) (maxPrice (validRecords l)) p,
      mem_scoreAndRank.mpr ⟨p, mem_validRecords.mpr ⟨hp, hpos⟩, rfl⟩,
      rfl, rfl, rfl, rfl⟩

/-- Witness for C8 on a list holding one invalid (zero-price) record. -/
theorem scoreAndRank_drops_nonpositive_witness :
    (∀ s ∈ scoreAndRank [(⟨"bad", 0, 5, "amazon", "u"⟩ : ProductRecord), rec1],
      0 < s.price) ∧
    ∃ s ∈ scoreAndRank [(⟨"bad", 0, 5, "amazon", "u"⟩ : ProductRecord), rec1],
      s.name = rec1.name ∧ s.price = rec1.price ∧
      s.rating = rec1.rating ∧ s.retailer = rec1.retailer :=
  scoreAndRank_drops_nonpositive _ rec1 (by simp) (by norm_num [rec1])

/-! ## Helper lemmas: the frontend scan -/

/-- The frontend scan without the tracked score: keep the incumbent unless
the challenger's (defaulted) score is strictly greater. -/
def pickFold (a : Product) (l : List Product) : Product :=
  l.foldl (fun best cur => if scoreD best < scoreD cur then cur else best) a

/-- The first product of `a :: l` attaining the maximum defaulted score,
computed structurally. -/
def firstMax1 (a : Product) : List Product → Product
  | [] => a
  | x :: xs => if scoreD (firstMax1 x xs) ≤ scoreD a then a else firstMax1 x xs

/-- The structural first-maximum dominates its own head. -/
theorem scoreD_le_firstMax1 (a : Product) (l : List Product) :
    scoreD a ≤ scoreD (firstMax1 a l) := by
  cases l with
  | nil => exact le_refl _
  | cons z zs =>
    show scoreD a ≤ scoreD (if scoreD (firstMax1 z zs) ≤ scoreD a then a else firstMax1 z zs)
    by_cases h : scoreD (firstMax1 z zs) ≤ scoreD a
    · rw [if_pos h]
    · rw [if_neg h]
      exact le_of_lt (not_le.mp h)

/-- A head that dominates the next element absorbs it. -/
theorem firstMax1_absorb {a x : Product} (hxa : scoreD x ≤ scoreD a)
    (xs : List Product) : firstMax1 a (x :: xs) = firstMax1 a xs := by
  cases xs with
  | nil =>
    show (if scoreD (firstMax1 x []) ≤ scoreD a then a else firstMax1 x []) = a
    exact if_pos hxa
  | cons z zs =>
    show (if scoreD (firstMax1 x (z :: zs)) ≤ scoreD a then a else firstMax1 x (z :: zs)) =
      if scoreD (firstMax1 z zs) ≤ scoreD a then a else firstMax1 z zs
    by_cases hxm : scoreD (firstMax1 z zs) ≤ scoreD x
    · have hx : firstMax1 x (z :: zs) = x := if_pos hxm
      rw [hx, if_pos hxa, if_pos (le_trans hxm hxa)]
    · have hx : firstMax1 x (z :: zs) = firstMax1 z zs := if_neg hxm
      rw [hx]

/-- The frontend scan computes the structural first-maximum. -/
theorem pickFold_eq_firstMax1 (l : List Product) : ∀ a : Product,
    pickFold a l = firstMax1 a l := by
  induction l with
  | nil => intro a; rfl
  | cons x xs ih =>
    intro a
    have hstep : pickFold a (x :: xs) =
        pickFold (if scoreD a < scoreD x then x else a) xs := rfl
    by_cases h : scoreD a < scoreD x
    · rw [hstep, if_pos h, ih x]
      have hne : ¬ scoreD (firstMax1 x xs) ≤ scoreD a :=
        not_le.mpr (lt_of_lt_of_le h (scoreD_le_firstMax1 x xs))
      exact ((if_neg hne).symm : firstMax1 x xs = firstMax1 a (x :: xs)).symm ▸ rfl
    · rw [hstep, if_neg h, ih a, firstMax1_absorb (not_lt.mp h) xs]

/-- The structural first-maximum attains the maximum score over `a :: l`. -/
theorem firstMax1_max (l : List Product) : ∀ a : Product, ∀ y ∈ a :: l,
    scoreD y ≤ scoreD (firstMax1 a l) := by
  induction l with
  | nil =>
    intro a y hy
    rw [List.mem_singleton.mp hy]
    exact le_refl _
  | cons x xs ih =>
    intro a y hy
    show scoreD y ≤ scoreD (if scoreD (firstMax1 x xs) ≤ scoreD a then a else firstMax1 x xs)
    by_cases h : scoreD (firstMax1 x xs) ≤ scoreD a
    · rw [if_pos h]
      rcases List.mem_cons.mp hy with rfl | hy'
      · exact le_refl _
      · exact le_trans (ih x y hy') h
    · rw [if_neg h]
      rcases List.mem_cons.mp hy with rfl | hy'
      · exact le_of_lt (not_le.mp h)
      · exact ih x y hy'

/-- The structural first-maximum is the first member of `a :: l` whose
score reaches the maximum. -/
theorem firstMax1_first (l : List Product) : ∀ a : Product,
    (a :: l).find? (fun y => decide (scoreD (firstMax1 a l) ≤ scoreD y)) =
      some (firstMax1 a l) := by
  induction l with
  | nil =>
    intro a
    exact List.find?_cons_of_pos _ (decide_eq_true (le_refl _))
  | cons x xs ih =>
    intro a
    by_cases h : scoreD (firstMax1 x xs) ≤ scoreD a
    · have ha : firstMax1 a (x :: xs) = a := if_pos h
      rw [ha]
      exact List.find?_cons_of_pos _ (decide_eq_true (le_refl _))
    · have ha : firstMax1 a (x :: xs) = firstMax1 x xs := if_neg h
      rw [ha]
      calc (a :: x :: xs).find? (fun y => decide (scoreD (firstMax1 x xs) ≤ scoreD y))
          = (x :: xs).find? (fun y => decide (scoreD (firstMax1 x xs) ≤ scoreD y)) :=
            List.find?_cons_of_neg _
              (fun hc => not_le.mpr (not_le.mp h) (of_decide_eq_true hc))
        _ = some (firstMax1 x xs) := ih x

/-- The `ResultsDisplay` pair scan tracks exactly the simple fold and its
score. -/
theorem resultsScan_eq_pickFold (l : List Product) : ∀ a : Product,
    resultsScan l (a, scoreD a) = (pickFold a l, scoreD (pickFold a l)) := by
  induction l with
  | nil => intro a; rfl
  | cons x xs ih =>
    intro a
    have hscan : resultsScan (x :: xs) (a, scoreD a) =
        resultsScan xs (resultsStep (a, scoreD a) x) := rfl
    have hpick : pickFold a (x :: xs) =
        pickFold (if scoreD a < scoreD x then x else a) xs := rfl
    by_cases h : scoreD a < scoreD x
    · rw [hscan, hpick, if_pos h]
      have : resultsStep (a, scoreD a) x = (x, scoreD x) := if_pos h
      rw [this, ih x]
    · rw [hscan, hpick, if_neg h]
      have : resultsStep (a, scoreD a) x = (a, scoreD a) := if_neg h
      rw [this, ih a]

/-- A fold step from an element onto itself is the identity. -/
theorem pickFold_self (a : Product) (t : List Product) :
    pickFold a (a :: t) = pickFold a t := by
  show pickFold (if scoreD a < scoreD a then a else a) t = pickFold a t
  rw [ite_self]

/-- The scanned best deal of `a :: t` is the structural first-maximum. -/
theorem resultsBestDeal_cons (a : Product) (t : List Product) :
    resultsBestDeal (a :: t) (List.cons_ne_nil a t) = firstMax1 a t := by
  show (resultsScan (a :: t) (a, scoreD a)).1 = firstMax1 a t
  rw [resultsScan_eq_pickFold, pickFold_self, pickFold_eq_firstMax1]

/-- The scanned running maximum of `a :: t` is the best deal's score. -/
theorem resultsMaxScore_cons (a : Product) (t : List Product) :
    resultsMaxScore (a :: t) (List.cons_ne_nil a t) = scoreD (firstMax1 a t) := by
  show (resultsScan (a :: t) (a, scoreD a)).2 = scoreD (firstMax1 a t)
  rw [resultsScan_eq_pickFold, pickFold_self, pickFold_eq_firstMax1]

/-- When every product carries a score, the `AIRecommendation` reduce and
the simple fold agree. -/
theorem aiFold_eq_pickFold (l : List Product) : ∀ a : Product,
    (∀ p ∈ l, p.final_score.isSome = true) → a.final_score.isSome = true →
    l.foldl (fun best cur =>
        if jsGT cur.final_score best.final_score then cur else best) a =
      pickFold a l := by
  induction l with
  | nil => intro a _ _; rfl
  | cons x xs ih =>
    intro a hall ha
    obtain ⟨ca, hca⟩ := Option.isSome_iff_exists.mp ha
    obtain ⟨cx, hcx⟩ := Option.isSome_iff_exists.mp (hall x (List.mem_cons_self x xs))
    have hstep : (if jsGT x.final_score a.final_score then x else a) =
        if scoreD a < scoreD x then x else a := by
      simp [jsGT, hca, hcx, scoreD]
    show List.foldl _ (if jsGT x.final_score a.final_score then x else a) xs =
      pickFold (if scoreD a < scoreD x then x else a) xs
    rw [hstep]
    have hx : (if scoreD a < scoreD x then x else a).final_score.isSome = true := by
      by_cases h : scoreD a < scoreD x
      · rw [if_pos h, hcx]; rfl
      · rw [if_neg h, hca]; rfl
    exact ih _ (fun p hp => hall p (List.mem_cons_of_mem x hp)) hx

/-- Every product in a non-empty list scores at most the scanned best deal. -/
theorem resultsBestDeal_max (l : List Product) (h : l ≠ []) :
    ∀ p ∈ l, scoreD p ≤ scoreD (resultsBestDeal l h) := by
  cases l with
  | nil => exact absurd rfl h
  | cons a t =>
    intro p hp
    rw [resultsBestDeal_cons]
    exact firstMax1_max t a p hp

/-! ## Claims about the frontend components -/

/-- C9: on the displayed products (all carrying a score), the
`AIRecommendation` reduce and the `ResultsDisplay` scan pick the same
record: the first product in input order whose score reaches the maximum
(the strict `>` comparison means later ties never replace the incumbent);
`maxScore` is that record's score, and the grid highlights exactly the
products whose `final_score` equals it — so several cards can carry the
best-deal marker at once. -/
theorem frontend_first_max_and_highlight (l : List Product) (h : l ≠ [])
    (hs : ∀ p ∈ l, p.final_score.isSome = true) :
    aiBestDeal l = some (resultsBestDeal l h) ∧
    l.find? (fun p => decide (scoreD (resultsBestDeal l h) ≤ scoreD p)) =
      some (resultsBestDeal l h) ∧
    (∀ p ∈ l, scoreD p ≤ scoreD (resultsBestDeal l h)) ∧
    resultsMaxScore l h = scoreD (resultsBestDeal l h) ∧
    (∀ p ∈ l, highlighted (resultsMaxScore l h) p = true ↔
      p.final_score = some (scoreD (resultsBestDeal l h))) := by
  cases l with
  | nil => exact absurd rfl h
  | cons a t =>
    have hbd : resultsBestDeal (a :: t) h = firstMax1 a t := resultsBestDeal_cons a t
    have hms : resultsMaxScore (a :: t) h = scoreD (firstMax1 a t) :=
      resultsMaxScore_cons a t
    refine ⟨?_, ?_, ?_, ?_, ?_⟩
    · have hfold := aiFold_eq_pickFold (a :: t) a hs
        (hs a (List.mem_cons_self a t))
      show some ((a :: t).foldl
          (fun best cur => if jsGT cur.final_score best.final_score then cur else best) a) =
        some (resultsBestDeal (a :: t) h)
      rw [hfold, pickFold_self, pickFold_eq_firstMax1, hbd]
    · rw [hbd]
      exact firstMax1_first t a
    · rw [hbd]
      exact firstMax1_max t a
    · rw [hms, hbd]
    · intro p hp
      rw [hms, hbd]
      simp [highlighted]

/-- Witness for C9 on two products tied at score `0.6`: the first is picked
and both satisfy the highlight predicate. -/
theorem frontend_first_max_and_highlight_witness :
    aiBestDeal
        [⟨"x1", 100, 4, "u1", "i1", "amazon", some 0.6, "Good Value", none⟩,
         ⟨"x2", 90, 4, "u2", "i2", "flipkart", some 0.6, "Good Value", none⟩] =
      some (resultsBestDeal
        [⟨"x1", 100, 4, "u1", "i1", "amazon", some 0.6, "Good Value", none⟩,
         ⟨"x2", 90, 4, "u2", "i2", "flipkart", some 0.6, "Good Value", none⟩]
        (List.cons_ne_nil _ _)) ∧
    List.find? (fun p => decide (scoreD (resultsBestDeal
        [⟨"x1", 100, 4, "u1", "i1", "amazon", some 0.6, "Good Value", none⟩,
         ⟨"x2", 90, 4, "u2", "i2", "flipkart", some 0.6, "Good Value", none⟩]
        (List.cons_ne_nil _ _)) ≤ scoreD p))
      [⟨"x1", 100, 4, "u1", "i1", "amazon", some 0.6, "Good Value", none⟩,
       ⟨"x2", 90, 4, "u2", "i2", "flipkart", some 0.6, "Good Value", none⟩] =
      some (resultsBestDeal
        [⟨"x1", 100, 4, "u1", "i1", "amazon", some 0.6, "Good Value", none⟩,
         ⟨"x2", 90, 4, "u2", "i2", "flipkart", some 0.6, "Good Value", none⟩]
        (List.cons_ne_nil _ _)) ∧
    (∀ p ∈ [(⟨"x1", 100, 4, "u1", "i1", "amazon", some 0.6, "Good Value", none⟩ : Product),
        ⟨"x2", 90, 4, "u2", "i2", "flipkart", some 0.6, "Good Value", none⟩],
      scoreD p ≤ scoreD (resultsBestDeal
        [⟨"x1", 100, 4, "u1", "i1", "amazon", some 0.6, "Good Value", none⟩,
         ⟨"x2", 90, 4, "u2", "i2", "flipkart", some 0.6, "Good Value", none⟩]
        (List.cons_ne_nil _ _))) ∧
    resultsMaxScore
        [⟨"x1", 100, 4, "u1", "i1", "amazon", some 0.6, "Good Value", none⟩,
         ⟨"x2", 90, 4, "u2", "i2", "flipkart", some 0.6, "Good Value", none⟩]
        (List.cons_ne_nil _ _) =
      scoreD (resultsBestDeal
        [⟨"x1", 100, 4, "u1", "i1", "amazon", some 0.6, "Good Value", none⟩,
         ⟨"x2", 90, 4, "u2", "i2", "flipkart", some 0.6, "Good Value", none⟩]
        (List.cons_ne_nil _ _)) ∧
    (∀ p ∈ [(⟨"x1", 100, 4, "u1", "i1", "amazon", some 0.6, "Good Value", none⟩ : Product),
        ⟨"x2", 90, 4, "u2", "i2", "flipkart", some 0.6, "Good Value", none⟩],
      highlighted (resultsMaxScore
        [⟨"x1", 100, 4, "u1", "i1", "amazon", some 0.6, "Good Value", none⟩,
         ⟨"x2", 90, 4, "u2", "i2", "flipkart", some 0.6, "Good Value", none⟩]
        (List.cons_ne_nil _ _)) p = true ↔
      p.final_score = some (scoreD (resultsBestDeal
        [⟨"x1", 100, 4, "u1", "i1", "amazon", some 0.6, "Good Value", none⟩,
         ⟨"x2", 90, 4, "u2", "i2", "flipkart", some 0.6, "Good Value", none⟩]
        (List.cons_ne_nil _ _)))) :=
  frontend_first_max_and_highlight _ (List.cons_ne_nil _ _)
    (by
      intro p hp
      rcases List.mem_cons.mp hp with rfl | hp'
      · rfl
      · rcases List.mem_cons.mp hp' with rfl | hp''
        · rfl
        · cases hp'')

/-- C10: in the `ResultsDisplay` best-deal computation a missing
`final_score` is treated as `0` (the `?? 0` default), so whenever any
displayed product has a strictly positive score, the selected best deal is
never a score-less product; the computation itself is total on records
without a score. -/
theorem resultsDisplay_missing_score_default (l : List Product) (h : l ≠ [])
    (p : Product) (hp : p ∈ l) (hpos : 0 < scoreD p) :
    (∀ q : Product, q.final_score = none → scoreD q = 0) ∧
    (resultsBestDeal l h).final_score ≠ none := by
  refine ⟨fun q hq => by simp [scoreD, hq], ?_⟩
  intro hnone
  have hmax := resultsBestDeal_max l h p hp
  have hz : scoreD (resultsBestDeal l h) = 0 := by simp [scoreD, hnone]
  rw [hz] at hmax
  exact absurd (lt_of_lt_of_le hpos hmax) (lt_irrefl 0)

/-- Witness for C10: with a score-less product listed first and a scored
product second, the scan still ends on a scored product. -/
theorem resultsDisplay_missing_score_default_witness :
    (∀ q : Product, q.final_score = none → scoreD q = 0) ∧
    (resultsBestDeal
      [⟨"n", 10, 4, "u1", "i1", "amazon", none, "", none⟩,
       ⟨"s", 20, 4, "u2", "i2", "flipkart", some 0.5, "Fair", none⟩]
      (List.cons_ne_nil _ _)).final_score ≠ none :=
  resultsDisplay_missing_score_default _ (List.cons_ne_nil _ _)
    ⟨"s", 20, 4, "u2", "i2", "flipkart", some 0.5, "Fair", none⟩
    (by simp) (by norm_num [scoreD])

end PriceCompare
